import Mathlib

/-!
Verification of the wormhole-explorer resilient ingestion layer.

This file embeds, as a shallow Lean model, the parts of the repository that
the specification's claims are about:

* the SQS queue consumer (`parser/queue/vaa_sqs.go`, function `Consume` and
  the `sqsConsumerMessage` callbacks);
* the EVM JSON-RPC block repository
  (`blockchain-watcher/src/infrastructure/repositories/evm/EvmJsonRPCBlockRepository.ts`:
  `getBlocks`, `getFilteredLogs`, `getTransactionReceipt`, `divideIntoBatches`);
* the EVM transaction polling use case
  (`blockchain-watcher/src/domain/actions/evm/GetEvmTransactions.ts`:
  `execute`, `filterTransactions`, `populateTransaction`).

Modelling conventions: network responses are passed in as explicit arguments
(the HTTP client is an external collaborator); JavaScript exceptions become
`Except String`; a JavaScript field that may be `undefined`, `null`, or a
value is modelled by `JsVal`; a JSON numeral on the wire is modelled by its
numeric value, and JavaScript truthiness of a string by disequality with the
empty string and of a number by disequality with zero.  `json.Unmarshal` and
the SQS client are external, so the queue consumer takes the two decoding
functions and the filter predicate as parameters.
-/

namespace WormholeExplorer

/-! ## Queue consumer (parser/queue/vaa_sqs.go) -/

/-- The outer SQS transport envelope (`sqsEvent`); its `Message` field holds
the serialized inner event. -/
structure SqsEvent where
  message : String
deriving DecidableEq

/-- The inner domain event (`VaaEvent`); only the chain id matters to the
consumer logic. -/
structure VaaEvent where
  chainID : Nat
deriving DecidableEq

/-- A raw message fetched from SQS: a body and an opaque receipt handle. -/
structure SqsMsg where
  body : String
  receiptHandle : String
deriving DecidableEq

/-- The metric increments the consumer can emit, named after the methods of
the `Metrics` interface that `Consume` actually calls
(`IncVaaConsumedQueue`, `IncVaaUnfiltered`). -/
inductive MetricEvent where
  | incVaaConsumedQueue (chainID : Nat)
  | incVaaUnfiltered (chainID : Nat)
deriving DecidableEq

/-- The two counter families of `MetricEvent`, forgetting the chain id. -/
inductive MetricKind where
  | consumedQueue
  | unfiltered
deriving DecidableEq, Fintype

/-- The counter family an event increments. -/
def MetricEvent.kind : MetricEvent → MetricKind
  | .incVaaConsumedQueue _ => .consumedQueue
  | .incVaaUnfiltered _ => .unfiltered

/-- Number of increments of counter family `k` in a metric-event list. -/
def countKind (k : MetricKind) (evs : List MetricEvent) : Nat :=
  evs.countP (fun e => e.kind == k)

/-- External dependencies of the consumer: the two `json.Unmarshal` steps
(outer envelope, inner event) and the caller-supplied filter predicate. -/
structure ConsumerDeps where
  decodeSqsEvent : String → Option SqsEvent
  decodeVaaEvent : String → Option VaaEvent
  filterConsume : VaaEvent → Bool

/-- A message pushed onto the output channel (`sqsConsumerMessage`, minus the
runtime plumbing: logger, wait group, context). -/
structure DispatchedMessage where
  id : String
  data : VaaEvent
deriving DecidableEq

/-- Observable outcome of processing one fetched message in `Consume`:
metric increments, `DeleteMessage` calls, and the message dispatched onto the
output channel, if any. -/
structure ProcessResult where
  metricEvents : List MetricEvent
  deletedHandles : List String
  dispatched : Option DispatchedMessage
deriving DecidableEq

/-- One iteration of the per-message loop body of `Consume`
(vaa_sqs.go lines 63-101): decode the envelope, decode the inner event
(`continue` on either failure), count the message as consumed, then either
delete it (filter signals skip) or count it as unfiltered and dispatch it. -/
def processMessage (deps : ConsumerDeps) (msg : SqsMsg) : ProcessResult :=
  match deps.decodeSqsEvent msg.body with
  | none => ⟨[], [], none⟩
  | some sqsEvent =>
    match deps.decodeVaaEvent sqsEvent.message with
    | none => ⟨[], [], none⟩
    | some vaaEvent =>
      if deps.filterConsume vaaEvent then
        ⟨[.incVaaConsumedQueue vaaEvent.chainID], [msg.receiptHandle], none⟩
      else
        ⟨[.incVaaConsumedQueue vaaEvent.chainID, .incVaaUnfiltered vaaEvent.chainID],
          [], some ⟨msg.receiptHandle, vaaEvent⟩⟩

/-- Messages of a batch that `Consume` dispatches onto the output channel. -/
def dispatchedOfBatch (deps : ConsumerDeps) (batch : List SqsMsg) : List DispatchedMessage :=
  (batch.map (processMessage deps)).filterMap (·.dispatched)

/-- Number of dispatched (in-flight) messages of one batch; the wait group
counter is incremented (`wg.Add(1)`) exactly once per dispatch. -/
def dispatchedCount (deps : ConsumerDeps) (batch : List SqsMsg) : Nat :=
  (dispatchedOfBatch deps batch).length

/-- Synchronization-relevant events of the `Consume` loop: a `GetMessages`
poll, a dispatch onto the output channel (`wg.Add(1)`), and a worker
completion (`wg.Done()`, reached by both `Done` and `Failed`). -/
inductive QueueEvent where
  | getMessages
  | dispatch
  | complete
deriving DecidableEq

/-- The events a single polling cycle may produce after its `GetMessages`
poll, for one fetched batch: no further poll occurs inside the cycle, and —
because `wg.Wait()` at the end of the cycle returns only once every
`wg.Add(1)` has been matched by a `wg.Done()` — the cycle contains exactly
one dispatch and exactly one completion per dispatched message of the batch.
Workers run concurrently, so the order of events inside the cycle body is
arbitrary. -/
def CycleBody (deps : ConsumerDeps) (batch : List SqsMsg) (body : List QueueEvent) : Prop :=
  QueueEvent.getMessages ∉ body ∧
    body.count QueueEvent.dispatch = dispatchedCount deps batch ∧
    body.count QueueEvent.complete = dispatchedCount deps batch

/-- The event traces the `Consume` goroutine can produce while processing a
sequence of fetched batches: each cycle is a `GetMessages` poll followed by a
cycle body for its batch. -/
inductive ConsumerTrace (deps : ConsumerDeps) : List (List SqsMsg) → List QueueEvent → Prop where
  | nil : ConsumerTrace deps [] []
  | cons (batch : List SqsMsg) (body : List QueueEvent) (batches : List (List SqsMsg))
      (rest : List QueueEvent) :
      CycleBody deps batch body → ConsumerTrace deps batches rest →
      ConsumerTrace deps (batch :: batches) (QueueEvent.getMessages :: (body ++ rest))

/-! ## EVM JSON-RPC block repository (EvmJsonRPCBlockRepository.ts) -/

/-- A JavaScript field that may be `undefined`, `null`, or carry a value;
the repository code distinguishes all three (`response.result === null`
versus the optional-chaining checks). -/
inductive JsVal (α : Type) where
  | undef
  | null
  | val (a : α)
deriving DecidableEq

/-- The provider error object attached to a failed per-request response
(`ErrorBlock`). -/
structure ErrorBlock where
  code : Nat
  message : String
deriving DecidableEq

/-- The raw block payload of one `eth_getBlockByNumber` response; `hash` is
a hex string, `number` and `timestamp` are modelled by their numeric
values. -/
structure WireBlock where
  hash : String
  number : Nat
  timestamp : Nat
deriving DecidableEq

/-- One entry of the batched `eth_getBlockByNumber` response array; `id`
is the echoed request id, whose value is the requested block number. -/
structure BlockResponse where
  id : Nat
  result : JsVal WireBlock
  error : JsVal ErrorBlock
deriving DecidableEq

/-- The domain block shape `getBlocks` produces. -/
structure EvmBlock where
  hash : String
  number : Nat
  timestamp : Nat
deriving DecidableEq

/-- A JavaScript plain object used as a map, modelled as an association
list in insertion order. -/
abbrev Rec (α : Type) : Type := List (String × α)

/-- Key lookup in a `Rec` (JavaScript property access). -/
def lookupRec {α : Type} : Rec α → String → Option α
  | [], _ => none
  | (k', v) :: rest, k => if k' = k then some v else lookupRec rest k

/-- Property assignment `acc[k] = v`: overwrite in place if the key exists,
otherwise append. -/
def insertRec {α : Type} (rec : Rec α) (k : String) (v : α) : Rec α :=
  if (lookupRec rec k).isSome then
    rec.map (fun p => if p.1 = k then (k, v) else p)
  else
    rec ++ [(k, v)]

/-- Straight-line effectful map over a list in `Except`: the model of a
JavaScript `Array.map` whose callback may `throw`. -/
def exceptMapM {α β : Type} (f : α → Except String β) : List α → Except String (List β)
  | [] => .ok []
  | x :: xs =>
    match f x with
    | .error e => .error e
    | .ok y =>
      match exceptMapM f xs with
      | .error e => .error e
      | .ok ys => .ok (y :: ys)

/-- Truthiness of `response.error && response.error.code && code === 6969`:
the designated Karura "block unavailable" code. -/
def errorCode6969 : JsVal ErrorBlock → Bool
  | .val e => e.code != 0 && e.code == 6969
  | _ => false

/-- Whether a per-block response takes the degraded-recovery branch of
`getBlocks`: a `null` result, or the provider error code 6969. -/
def isDegradedResp (resp : BlockResponse) : Bool :=
  resp.result == JsVal.null || errorCode6969 resp.error

/-- Whether a per-block response carries a well-formed block: a present
result object whose `hash`, `number` and `timestamp` fields are truthy. -/
def wellFormedResp (resp : BlockResponse) : Bool :=
  match resp.result with
  | .val b => b.hash != "" && b.number != 0 && b.timestamp != 0
  | _ => false

/-- The per-response callback of the `results.map` inside `getBlocks`
(EvmJsonRPCBlockRepository.ts lines 73-118): synthesize a degraded block on
a `null` result or error code 6969, convert a well-formed result, and throw
otherwise.  `now` is `Date.now()`. -/
def processBlockResponse (now : Nat) (r : Option BlockResponse) : Except String EvmBlock :=
  match r with
  | some resp =>
    if isDegradedResp resp then
      .ok { hash := "", number := resp.id, timestamp := now }
    else
      match resp.result with
      | .val b =>
        if b.hash != "" && b.number != 0 && b.timestamp != 0 then
          .ok { hash := b.hash, number := b.number, timestamp := b.timestamp }
        else
          .error "Unable to parse result of eth_getBlockByNumber"
      | _ => .error "Unable to parse result of eth_getBlockByNumber"
  | none => .error "Unable to parse result of eth_getBlockByNumber"

/-- `getBlocks(chain, blockNumbers)`: empty input short-circuits to an empty
record with no network call; an empty (or missing) response array throws;
otherwise every response entry is mapped by `processBlockResponse` and the
resulting blocks are accumulated into a record keyed by block hash.
`responses` is the batched RPC response array, one entry per request. -/
def getBlocks (now : Nat) (blockNumbers : List Nat)
    (responses : List (Option BlockResponse)) : Except String (Rec EvmBlock) :=
  if blockNumbers.length = 0 then .ok []
  else if responses.length = 0 then
    .error "Unable to parse 0 blocks for eth_getBlockByNumber"
  else
    match exceptMapM (processBlockResponse now) responses with
    | .error e => .error e
    | .ok blocks => .ok (blocks.foldl (fun acc b => insertRec acc b.hash b) [])

/-- A raw log entry of an `eth_getLogs` response (wire type `Log`);
`blockNumber` and `transactionIndex` are modelled by their numeric values. -/
structure WireLog where
  blockNumber : Nat
  blockHash : String
  transactionIndex : Nat
  removed : Bool
  address : String
  data : String
  topics : List String
  transactionHash : String
  logIndex : Nat
deriving DecidableEq

/-- The normalized domain log `getFilteredLogs` produces: block number as an
integer, transaction index as a string, tagged with the chain id. -/
structure EvmLog where
  blockNumber : Nat
  blockHash : String
  transactionIndex : String
  removed : Bool
  address : String
  data : String
  topics : List String
  transactionHash : String
  logIndex : Nat
  chainId : Nat
deriving DecidableEq

/-- A log query filter (`EvmLogFilter`): inclusive block range, addresses
and topics. -/
structure EvmLogFilter where
  addresses : List String
  topics : List String
  fromBlock : Nat
  toBlock : Nat
deriving DecidableEq

/-- `getFilteredLogs(chain, filter)` (EvmJsonRPCBlockRepository.ts lines
132-173): the filter only shapes the outgoing request; `result` is the
`eth_getLogs` response body (`undefined`/`null` folded into `none`).  Every
returned log is normalized and tagged; no range check is applied to the
logs the provider returns. -/
def getFilteredLogs (chainId : Nat) (filter : EvmLogFilter)
    (result : Option (List WireLog)) : List EvmLog :=
  match result with
  | some logs =>
    logs.map (fun log =>
      { blockNumber := log.blockNumber
        blockHash := log.blockHash
        transactionIndex := toString log.transactionIndex
        removed := log.removed
        address := log.address
        data := log.data
        topics := log.topics
        transactionHash := log.transactionHash
        logIndex := log.logIndex
        chainId := chainId })
  | none => []

/-- A single log of a transaction receipt. -/
structure ReceiptLog where
  address : String
  topics : List String
  data : String
deriving DecidableEq

/-- The raw receipt payload of one `eth_getTransactionReceipt` response. -/
structure WireReceipt where
  status : String
  transactionHash : String
  logs : List ReceiptLog
deriving DecidableEq

/-- One non-null entry of a batched `eth_getTransactionReceipt` response
array (wire type `ResultTransactionReceipt`). -/
structure ReceiptResponse where
  result : JsVal WireReceipt
  error : JsVal ErrorBlock
deriving DecidableEq

/-- The domain receipt shape (`ReceiptTransaction`). -/
structure ReceiptTransaction where
  status : String
  transactionHash : String
  logs : List ReceiptLog
deriving DecidableEq

/-- The per-response callback of the `combinedResults.map` inside
`getTransactionReceipt` (lines 273-293): keep a response whose `status` and
`transactionHash` are truthy, throw on anything else. -/
def processReceiptResponse (r : ReceiptResponse) : Except String ReceiptTransaction :=
  match r.result with
  | .val w =>
    if w.status != "" && w.transactionHash != "" then
      .ok { status := w.status, transactionHash := w.transactionHash, logs := w.logs }
    else
      .error "Unable to parse result of eth_getTransactionReceipt"
  | _ => .error "Unable to parse result of eth_getTransactionReceipt"

/-- `divideIntoBatches` (lines 313-329): chunk the hash set into batches of
at most `batchSize` (default 10) in iteration order. -/
def divideIntoBatches (batchSize : Nat) (set : List String) : List (List String) :=
  let step := set.foldl
    (fun (acc : List (List String) × List String) item =>
      let batch := acc.2 ++ [item]
      if batch.length = batchSize then (acc.1 ++ [batch], []) else (acc.1, batch))
    ([], [])
  if step.2.length > 0 then step.1 ++ [step.2] else step.1

/-- `getTransactionReceipt(chain, hashNumbers)` (lines 231-307): hashes are
chunked into batches of 10; `respond` models the per-batch HTTP round trip
(its result array may contain `null` entries).  The per-batch loop
`for (let result of results) if (result) combinedResults.push(result)` drops
falsy entries; the accumulated non-null responses are then parsed (throwing
on any malformed one) and keyed by transaction hash; an empty accumulation
throws. -/
def getTransactionReceipt (respond : List String → List (Option ReceiptResponse))
    (hashNumbers : List String) : Except String (Rec ReceiptTransaction) :=
  let batches := divideIntoBatches 10 hashNumbers
  let combinedResults := (batches.map (fun b => (respond b).filterMap id)).flatten
  if combinedResults.length ≠ 0 then
    match exceptMapM processReceiptResponse combinedResults with
    | .error e => .error e
    | .ok receipts => .ok (receipts.foldl (fun acc r => insertRec acc r.transactionHash r) [])
  else
    .error "Unable to parse result of eth_getTransactionReceipt"

/-! ## Polling use case GetEvmTransactions (GetEvmTransactions.ts) -/

/-- An EVM transaction as carried inside a block and later enriched in
place by `populateTransaction`; `to` and `from` are Lean keywords, so the
fields are named `toAddr` and `fromAddr`. -/
structure EvmTransaction where
  hash : String
  toAddr : String
  fromAddr : String
  status : String
  timestamp : Nat
  environment : String
  chainId : Nat
  chain : String
  logs : List ReceiptLog
deriving DecidableEq

/-- A block fetched with its transaction bodies (`transactions` may be
absent: `evmBlock.transactions ?? []`). -/
structure EvmBlockFull where
  hash : String
  number : Nat
  timestamp : Nat
  transactions : Option (List EvmTransaction)
deriving DecidableEq

/-- Filter options of the use case (`GetEvmOpts`): `addresses` and `topics`
are optional in the job configuration. -/
structure GetEvmOpts where
  addresses : Option (List String)
  topics : Option (List String)
  chain : String
  chainId : Nat
  environment : String
deriving DecidableEq

/-- One repository (RPC) call issued by `execute`. -/
inductive RepoCall where
  | getBlock (chain : String) (number : Nat)
  | getTransactionReceipt (chain : String) (hashes : List String)
deriving DecidableEq

/-- The block repository as seen by `execute`: per-block fetch with
transaction bodies, and a batched receipt fetch returning a record keyed by
transaction hash. -/
structure EvmBlockRepo where
  getBlock : Nat → EvmBlockFull
  getTransactionReceipt : List String → Rec ReceiptTransaction

/-- JavaScript `String.prototype.toLowerCase` on the ASCII addresses the job
configuration uses: per-character lowercasing. -/
def strToLower (s : String) : String :=
  String.mk (s.data.map Char.toLower)

/-- The first-pass address filter of `execute` (GetEvmTransactions.ts lines
38-42): keep a transaction if the configured address list contains the
lowercased `to` address or the lowercased `from` address; the configured addresses
themselves are compared verbatim. -/
def addressFilterKeep (addresses : Option (List String)) (tx : EvmTransaction) : Bool :=
  match addresses with
  | some addrs => addrs.contains (strToLower tx.toAddr) || addrs.contains (strToLower tx.fromAddr)
  | none => false

/-- Receipt logs of a transaction:
`receiptTransactions[transaction.hash]?.logs || []`. -/
def receiptLogsFor (receipts : Rec ReceiptTransaction) (tx : EvmTransaction) : List ReceiptLog :=
  match lookupRec receipts tx.hash with
  | some r => r.logs
  | none => []

/-- `filterTransactions` (lines 96-109): retain a transaction when some
receipt log yields a truthy value for
`optsTopics?.find(topic => log.topics?.includes(topic))` — i.e. the first
configured topic contained in the log's topics, coerced to a boolean, so a
found empty-string topic counts as `false`. -/
def filterTransactions (optsTopics : Option (List String))
    (transactionsByAddressConfigured : List EvmTransaction)
    (receiptTransactions : Rec ReceiptTransaction) : List EvmTransaction :=
  transactionsByAddressConfigured.filter (fun transaction =>
    (receiptLogsFor receiptTransactions transaction).any (fun log =>
      match optsTopics with
      | none => false
      | some topics =>
        match topics.find? (fun topic => log.topics.contains topic) with
        | some topic => topic != ""
        | none => false))

/-- `populateTransaction` (lines 74-90): enrich each filtered transaction
with its receipt status and logs, the block timestamp, and the job's chain
metadata.  The receipt lookup always succeeds on transactions that passed
`filterTransactions` (a passing transaction has a nonempty receipt log
list); the JavaScript code would throw otherwise, and the model substitutes
an empty receipt in that unreachable case. -/
def populateTransaction (opts : GetEvmOpts) (evmBlock : EvmBlockFull)
    (receiptTransactions : Rec ReceiptTransaction)
    (filtered : List EvmTransaction) : List EvmTransaction :=
  filtered.map (fun transaction =>
    let receipt := (lookupRec receiptTransactions transaction.hash).getD ⟨"", "", []⟩
    { transaction with
        status := receipt.status
        timestamp := evmBlock.timestamp
        environment := opts.environment
        chainId := opts.chainId
        chain := opts.chain
        logs := receipt.logs })

/-- The sequential per-block loop of `execute` (lines 33-64) over an
explicit list of block numbers: fetch the block, apply the address filter,
and — only when some transaction survives — fetch receipts for the deduped
hash set, apply the topic filter, and append the enriched transactions.
Returns the aggregate result together with the trace of repository calls. -/
def executeLoop (repo : EvmBlockRepo) (opts : GetEvmOpts) :
    List Nat → List EvmTransaction × List RepoCall
  | [] => ([], [])
  | blockNum :: rest =>
    let evmBlock := repo.getBlock blockNum
    let transactions := evmBlock.transactions.getD []
    let transactionsByAddressConfigured :=
      transactions.filter (addressFilterKeep opts.addresses)
    let (restTxs, restCalls) := executeLoop repo opts rest
    if transactionsByAddressConfigured.length > 0 then
      let hashNumbers := (transactionsByAddressConfigured.map (·.hash)).eraseDups
      let receiptTransactions := repo.getTransactionReceipt hashNumbers
      let filtered := filterTransactions opts.topics transactionsByAddressConfigured
        receiptTransactions
      let populated := populateTransaction opts evmBlock receiptTransactions filtered
      (populated ++ restTxs,
        RepoCall.getBlock opts.chain blockNum ::
          RepoCall.getTransactionReceipt opts.chain hashNumbers :: restCalls)
    else
      (restTxs, RepoCall.getBlock opts.chain blockNum :: restCalls)

/-- The inclusive block range `[fromBlock, toBlock]` iterated by the loop
header `for (let block = fromBlock; block <= toBlock; block++)`. -/
def blockRange (fromBlock toBlock : Nat) : List Nat :=
  (List.range (toBlock + 1 - fromBlock)).map (fromBlock + ·)

/-- `execute(range, opts)` (lines 15-72): an inverted range returns the
empty list immediately, before any repository call; otherwise the block
range is processed sequentially.  The second component is the trace of
repository (RPC) calls issued. -/
def execute (repo : EvmBlockRepo) (fromBlock toBlock : Nat) (opts : GetEvmOpts) :
    List EvmTransaction × List RepoCall :=
  if fromBlock > toBlock then ([], [])
  else executeLoop repo opts (blockRange fromBlock toBlock)

/-! ## Auxiliary definitions used by the theorems -/

/-- Success test for `Except` results. -/
def isOkE {β : Type} : Except String β → Bool
  | .ok _ => true
  | .error _ => false

/-- Whether an entry of a batched block response array takes the
degraded-recovery branch. -/
def degradedEntry : Option BlockResponse → Bool
  | some x => isDegradedResp x
  | none => false

/-- Keys of a record, in insertion order. -/
def recKeys {α : Type} (rec : Rec α) : List String :=
  rec.map Prod.fst

/-! ## Concrete fixtures for witnesses and counterexamples -/

/-- Concrete consumer dependencies: two decodable envelopes (one whose event
the filter rejects, one it accepts), one envelope with an undecodable inner
event, everything else undecodable; the filter skips chain id 1. -/
def testDeps : ConsumerDeps where
  decodeSqsEvent s :=
    if s = "envReject" then some ⟨"evtReject"⟩
    else if s = "envAccept" then some ⟨"evtAccept"⟩
    else if s = "envBadInner" then some ⟨"evtBad"⟩
    else none
  decodeVaaEvent s :=
    if s = "evtReject" then some ⟨1⟩
    else if s = "evtAccept" then some ⟨2⟩
    else none
  filterConsume v := v.chainID == 1

/-- A message whose decoded event the filter rejects. -/
def rejectedMsg : SqsMsg := ⟨"envReject", "h1"⟩

/-- A message whose decoded event the filter accepts. -/
def acceptedMsg : SqsMsg := ⟨"envAccept", "h2"⟩

/-- A message whose outer envelope fails to decode. -/
def badOuterMsg : SqsMsg := ⟨"garbage", "h3"⟩

/-- A batch response oracle whose single batch answer holds one valid
receipt response followed by a `null` entry. -/
def c6Respond : List String → List (Option ReceiptResponse) :=
  fun _ => [some ⟨JsVal.val ⟨"0x1", "0xabc", []⟩, JsVal.undef⟩, none]

/-- A batch response oracle answering a single non-null but unparseable
(null-result) receipt response. -/
def c6BadRespond : List String → List (Option ReceiptResponse) :=
  fun _ => [some ⟨JsVal.null, JsVal.undef⟩]

/-! ## Helper lemmas -/

theorem isOkE_iff_exists {β : Type} (m : Except String β) :
    isOkE m = true ↔ ∃ a, m = .ok a := by
  cases m <;> simp [isOkE]

theorem exceptMapM_isOk_iff {α β : Type} (f : α → Except String β) (l : List α) :
    isOkE (exceptMapM f l) = true ↔ ∀ x ∈ l, isOkE (f x) = true := by
  induction l with
  | nil => simp [exceptMapM, isOkE]
  | cons x xs ih =>
    cases hfx : f x with
    | error e => simp [exceptMapM, hfx, isOkE]
    | ok y =>
      cases hrec : exceptMapM f xs with
      | error e =>
        simp only [exceptMapM, hfx, hrec]
        constructor
        · intro hcontr
          simp [isOkE] at hcontr
        · intro hforall
          exfalso
          have htail : ∀ z ∈ xs, isOkE (f z) = true :=
            fun z hz => hforall z (List.mem_cons_of_mem x hz)
          have := ih.mpr htail
          rw [hrec] at this
          simp [isOkE] at this
      | ok ys =>
        have hxs := ih
        rw [hrec] at hxs
        simp only [exceptMapM, hfx, hrec]
        simp [isOkE, hfx] at hxs ⊢
        exact hxs

theorem exceptMapM_ok_iff {α β : Type} (f : α → Except String β) (l : List α) (bs : List β) :
    exceptMapM f l = .ok bs ↔ List.Forall₂ (fun a b => f a = .ok b) l bs := by
  induction l generalizing bs with
  | nil =>
    cases bs <;> simp [exceptMapM]
  | cons x xs ih =>
    cases hfx : f x with
    | error e =>
      simp only [exceptMapM, hfx]
      constructor
      · intro h; exact absurd h (by simp)
      · intro h
        rcases h with _ | ⟨hab, _⟩
        rw [hfx] at hab
        exact absurd hab (by simp)
    | ok y =>
      cases hrec : exceptMapM f xs with
      | error e =>
        simp only [exceptMapM, hfx, hrec]
        constructor
        · intro h; exact absurd h (by simp)
        · intro h
          rcases h with _ | ⟨_, htail⟩
          have := (ih _).mpr htail
          rw [hrec] at this
          exact absurd this (by simp)
      | ok ys =>
        simp only [exceptMapM, hfx, hrec]
        constructor
        · intro h
          have hbs : bs = y :: ys := by
            simpa using h.symm
          subst hbs
          exact List.Forall₂.cons hfx ((ih ys).mp hrec)
        · intro h
          rcases h with _ | ⟨hab, htail⟩
          rw [hfx] at hab
          injection hab with hy
          have hys := (ih _).mpr htail
          rw [hrec] at hys
          injection hys with hl
          rw [hy, hl]

theorem exceptMapM_not_ok_of_mem {α β : Type} (f : α → Except String β) (l : List α)
    (x : α) (hx : x ∈ l) (hbad : isOkE (f x) = false) :
    isOkE (exceptMapM f l) = false := by
  by_contra h
  have hok : isOkE (exceptMapM f l) = true := by
    cases hv : isOkE (exceptMapM f l)
    · exact absurd hv h
    · rfl
  have := (exceptMapM_isOk_iff f l).mp hok x hx
  rw [this] at hbad
  exact absurd hbad (by simp)

theorem countP_add_countP_not {α : Type} (p : α → Bool) (l : List α) :
    l.countP p + l.countP (fun a => !(p a)) = l.length := by
  induction l with
  | nil => simp
  | cons x xs ih =>
    simp only [List.countP_cons, List.length_cons]
    cases hpx : p x <;> simp [hpx] <;> omega

theorem append_split_of_not_mem {α : Type} (a : α) (body : List α) :
    ∀ (rest p s : List α), a ∉ body → body ++ rest = p ++ a :: s →
      ∃ p', p = body ++ p' ∧ rest = p' ++ a :: s := by
  induction body with
  | nil =>
    intro rest p s _ h
    exact ⟨p, rfl, by simpa using h⟩
  | cons x bt ih =>
    intro rest p s hna h
    match p with
    | [] =>
      exfalso
      have hx : x = a := by
        have h' : x :: (bt ++ rest) = a :: s := by simpa using h
        injection h'
      exact hna (hx ▸ List.mem_cons_self x bt)
    | y :: pt =>
      have h' : x :: (bt ++ rest) = y :: (pt ++ a :: s) := by simpa using h
      have hxy : x = y := by injection h'
      have htail : bt ++ rest = pt ++ a :: s := by injection h'
      have hna' : a ∉ bt := fun hmem => hna (List.mem_cons_of_mem x hmem)
      obtain ⟨p', hp, hr⟩ := ih rest pt s hna' htail
      exact ⟨p', by rw [hp, hxy]; rfl, hr⟩

/-! ## Claim theorems -/

/-- C7: for every range with `fromBlock > toBlock`,
`GetEvmTransactions.execute` returns the empty list and performs zero
repository (RPC) calls. -/
theorem execute_invalid_range_empty (repo : EvmBlockRepo) (opts : GetEvmOpts)
    (fromBlock toBlock : Nat) (h : fromBlock > toBlock) :
    execute repo fromBlock toBlock opts = ([], []) := by
  simp [execute, h]

/-- Witness for C7 at the spec's concrete example `{fromBlock:10, toBlock:5}`. -/
theorem execute_invalid_range_empty_witness :
    10 > 5 ∧
      execute ⟨fun _ => ⟨"", 0, 0, none⟩, fun _ => []⟩ 10 5
        ⟨none, none, "ethereum", 2, "mainnet"⟩ = ([], []) :=
  ⟨by decide, execute_invalid_range_empty _ _ 10 5 (by decide)⟩

/-- C2 counterexample: the configured address `"0xA"` and the transaction's
`to` address `"0xa"` are equal up to letter case, yet the first-pass filter
of `execute` drops the transaction, because only the transaction side is
lowercased. -/
theorem addressFilter_not_case_insensitive :
    strToLower "0xA" = strToLower "0xa" ∧
      addressFilterKeep (some ["0xA"]) ⟨"0xh", "0xa", "0xb", "", 0, "", 0, "", []⟩ = false := by
  constructor
  · decide
  · decide

/-- C2 (amended): the first-pass filter keeps a transaction if and only if
the lowercased `to` or `from` address is literally a configured address; in
particular, when every configured address is already lowercase, matching is
case-insensitive in the transaction's addresses. -/
theorem addressFilter_case_insensitive_of_lowercase (addrs : List String)
    (tx : EvmTransaction) (h : ∀ a ∈ addrs, strToLower a = a) :
    addressFilterKeep (some addrs) tx = true ↔
      ∃ a ∈ addrs,
        strToLower a = strToLower tx.toAddr ∨ strToLower a = strToLower tx.fromAddr := by
  simp only [addressFilterKeep, Bool.or_eq_true, List.contains, List.elem_iff]
  constructor
  · rintro (hmem | hmem)
    · exact ⟨strToLower tx.toAddr, hmem, Or.inl (h _ hmem)⟩
    · exact ⟨strToLower tx.fromAddr, hmem, Or.inr (h _ hmem)⟩
  · rintro ⟨a, ha, hcase | hcase⟩
    · exact Or.inl (((h a ha).symm.trans hcase) ▸ ha)
    · exact Or.inr (((h a ha).symm.trans hcase) ▸ ha)

/-- Witness for the amended C2: configured lowercase `"0xab"` matches the
mixed-case transaction address `"0xAb"`. -/
theorem addressFilter_case_insensitive_of_lowercase_witness :
    (∀ a ∈ ["0xab"], strToLower a = a) ∧
      (addressFilterKeep (some ["0xab"]) ⟨"0xh", "0xAb", "0xcd", "", 0, "", 0, "", []⟩ = true ↔
        ∃ a ∈ ["0xab"],
          strToLower a = strToLower "0xAb" ∨ strToLower a = strToLower "0xcd") :=
  ⟨by decide, addressFilter_case_insensitive_of_lowercase ["0xab"] _ (by decide)⟩

/-- C10: a fetched message whose outer envelope or inner payload fails JSON
decoding is skipped: no delete, no metric increment (so neither the
consumed, unfiltered, nor in-flight counter moves), nothing dispatched onto
the output channel; the message is left to SQS redelivery. -/
theorem processMessage_decode_failure_skips (deps : ConsumerDeps) (msg : SqsMsg)
    (h : deps.decodeSqsEvent msg.body = none ∨
      ∃ e, deps.decodeSqsEvent msg.body = some e ∧ deps.decodeVaaEvent e.message = none) :
    processMessage deps msg = ⟨[], [], none⟩ := by
  rcases h with h | ⟨e, h1, h2⟩
  · simp [processMessage, h]
  · simp [processMessage, h1, h2]

/-- Witness for C10 on a message with an undecodable outer envelope. -/
theorem processMessage_decode_failure_skips_witness :
    (testDeps.decodeSqsEvent badOuterMsg.body = none) ∧
      processMessage testDeps badOuterMsg = ⟨[], [], none⟩ :=
  ⟨by decide, processMessage_decode_failure_skips testDeps badOuterMsg (Or.inl (by decide))⟩

/-- C4 counterexample: a message rejected by the filter is deleted and never
dispatched, but no "filtered" counter is incremented: no metric family of
the consumer's `Metrics` interface usage is incremented exactly once on this
rejection while staying untouched on an acceptance — the only increment on
the rejection path (`IncVaaConsumedQueue`) also fires for accepted
messages. -/
theorem rejected_message_has_no_filtered_counter :
    (processMessage testDeps rejectedMsg).deletedHandles = ["h1"] ∧
      (processMessage testDeps rejectedMsg).dispatched = none ∧
      ¬ ∃ k : MetricKind,
          countKind k (processMessage testDeps rejectedMsg).metricEvents = 1 ∧
          countKind k (processMessage testDeps acceptedMsg).metricEvents = 0 := by
  decide

/-- C4 (amended): a message rejected by the filter predicate is deleted from
the source queue, never placed on the output channel, and the rejection
increments no counter beyond the `IncVaaConsumedQueue` increment performed
for every decoded message; in particular the unfiltered/in-flight counter is
untouched and no dedicated "filtered" counter exists. -/
theorem processMessage_rejected (deps : ConsumerDeps) (msg : SqsMsg)
    (e : SqsEvent) (v : VaaEvent)
    (h1 : deps.decodeSqsEvent msg.body = some e)
    (h2 : deps.decodeVaaEvent e.message = some v)
    (h3 : deps.filterConsume v = true) :
    processMessage deps msg =
      ⟨[MetricEvent.incVaaConsumedQueue v.chainID], [msg.receiptHandle], none⟩ := by
  simp [processMessage, h1, h2, h3]

/-- Witness for the amended C4 on the concrete rejected message. -/
theorem processMessage_rejected_witness :
    (testDeps.decodeSqsEvent rejectedMsg.body = some ⟨"evtReject"⟩ ∧
        testDeps.decodeVaaEvent "evtReject" = some ⟨1⟩ ∧
        testDeps.filterConsume ⟨1⟩ = true) ∧
      processMessage testDeps rejectedMsg =
        ⟨[MetricEvent.incVaaConsumedQueue 1], ["h1"], none⟩ :=
  ⟨⟨by decide, by decide, by decide⟩,
    processMessage_rejected testDeps rejectedMsg ⟨"evtReject"⟩ ⟨1⟩
      (by decide) (by decide) (by decide)⟩

/-- C1: in every trace of the `Consume` loop, at every `GetMessages` poll
the in-flight counter is zero: the number of dispatches strictly before the
poll equals the number of completions strictly before it — the consumer does
not fetch the next batch until every in-flight message of the current batch
has been acknowledged (`Done`) or failed (`Failed`). -/
theorem consume_batch_barrier (deps : ConsumerDeps) (batches : List (List SqsMsg))
    (tr : List QueueEvent) (htr : ConsumerTrace deps batches tr) :
    ∀ p s : List QueueEvent, tr = p ++ QueueEvent.getMessages :: s →
      p.count QueueEvent.dispatch = p.count QueueEvent.complete := by
  induction htr with
  | nil =>
    intro p s hsplit
    exact absurd hsplit (by simp)
  | cons batch body bs rest hbody _ ih =>
    intro p s hsplit
    match p, hsplit with
    | [], _ => simp
    | e :: pt, hsplit =>
      have hsplit' : QueueEvent.getMessages :: (body ++ rest) =
          e :: (pt ++ QueueEvent.getMessages :: s) := by simpa using hsplit
      have he : QueueEvent.getMessages = e := by injection hsplit'
      have h2 : body ++ rest = pt ++ QueueEvent.getMessages :: s := by injection hsplit'
      obtain ⟨p', hpt, hrest⟩ :=
        append_split_of_not_mem QueueEvent.getMessages body rest pt s hbody.1 h2
      have hc := ih p' s hrest
      subst hpt
      rw [← he]
      simp only [List.count_cons, List.count_append, hbody.2.1, hbody.2.2]
      simp [hc]

/-- Witness for C1: a two-cycle trace of two singleton batches, split at the
second `GetMessages` poll. -/
theorem consume_batch_barrier_witness :
    ConsumerTrace testDeps [[acceptedMsg], [acceptedMsg]]
        [QueueEvent.getMessages, QueueEvent.dispatch, QueueEvent.complete,
          QueueEvent.getMessages, QueueEvent.dispatch, QueueEvent.complete] ∧
      ([QueueEvent.getMessages, QueueEvent.dispatch, QueueEvent.complete].count
          QueueEvent.dispatch =
        [QueueEvent.getMessages, QueueEvent.dispatch, QueueEvent.complete].count
          QueueEvent.complete) := by
  have hbody : CycleBody testDeps [acceptedMsg] [QueueEvent.dispatch, QueueEvent.complete] :=
    ⟨by decide, by decide, by decide⟩
  have htr1 : ConsumerTrace testDeps [[acceptedMsg]]
      [QueueEvent.getMessages, QueueEvent.dispatch, QueueEvent.complete] :=
    ConsumerTrace.cons [acceptedMsg] [QueueEvent.dispatch, QueueEvent.complete] [] []
      hbody ConsumerTrace.nil
  have htr : ConsumerTrace testDeps [[acceptedMsg], [acceptedMsg]]
      [QueueEvent.getMessages, QueueEvent.dispatch, QueueEvent.complete,
        QueueEvent.getMessages, QueueEvent.dispatch, QueueEvent.complete] :=
    ConsumerTrace.cons [acceptedMsg] [QueueEvent.dispatch, QueueEvent.complete]
      [[acceptedMsg]] [QueueEvent.getMessages, QueueEvent.dispatch, QueueEvent.complete]
      hbody htr1
  exact ⟨htr,
    consume_batch_barrier testDeps [[acceptedMsg], [acceptedMsg]]
      [QueueEvent.getMessages, QueueEvent.dispatch, QueueEvent.complete,
        QueueEvent.getMessages, QueueEvent.dispatch, QueueEvent.complete] htr
      [QueueEvent.getMessages, QueueEvent.dispatch, QueueEvent.complete]
      [QueueEvent.dispatch, QueueEvent.complete] rfl⟩

/-- C3 counterexample: with a filter range of [100, 200], a provider
response holding a log at block 999 is returned unchanged — `getFilteredLogs`
performs no range check, so the returned log's block number lies outside the
filter's range. -/
theorem getFilteredLogs_out_of_range :
    (getFilteredLogs 2 ⟨[], [], 100, 200⟩
        (some [⟨999, "0xbh", 0, false, "0xaddr", "0xdata", [], "0xtx", 0⟩])).map
        (fun l => l.blockNumber) = [999] ∧
      ¬ (100 ≤ 999 ∧ 999 ≤ 200) := by
  constructor
  · decide
  · decide

/-- C3 (amended): `getFilteredLogs` preserves each log's reported block
number, so every returned log lies within the filter's inclusive range
exactly when every log of the provider's response does; the repository
itself never filters or validates the range. -/
theorem getFilteredLogs_range_of_response (chainId : Nat) (filter : EvmLogFilter)
    (logs : List WireLog)
    (h : ∀ l ∈ logs, filter.fromBlock ≤ l.blockNumber ∧ l.blockNumber ≤ filter.toBlock) :
    ∀ out ∈ getFilteredLogs chainId filter (some logs),
      filter.fromBlock ≤ out.blockNumber ∧ out.blockNumber ≤ filter.toBlock := by
  intro out hout
  simp only [getFilteredLogs, List.mem_map] at hout
  obtain ⟨l, hl, hout⟩ := hout
  subst hout
  exact h l hl

/-- Witness for the amended C3 on a response whose single log sits inside
the range [100, 200]. -/
theorem getFilteredLogs_range_of_response_witness :
    (∀ l ∈ [(⟨150, "0xbh", 1, false, "0xaddr", "0xdata", [], "0xtx", 0⟩ : WireLog)],
        100 ≤ l.blockNumber ∧ l.blockNumber ≤ 200) ∧
      ∀ out ∈ getFilteredLogs 2 ⟨[], [], 100, 200⟩
          (some [⟨150, "0xbh", 1, false, "0xaddr", "0xdata", [], "0xtx", 0⟩]),
        100 ≤ out.blockNumber ∧ out.blockNumber ≤ 200 :=
  ⟨by decide,
    getFilteredLogs_range_of_response 2 ⟨[], [], 100, 200⟩
      [⟨150, "0xbh", 1, false, "0xaddr", "0xdata", [], "0xtx", 0⟩] (by decide)⟩

/-- C8 counterexample: with configured topics `["", "0xa"]` and a single
transaction whose receipt log topics are `["", "0xa"]`, a configured topic
("0xa") does occur among the log's topics, yet `filterTransactions` excludes
the transaction: the first matching configured topic is the empty string,
which JavaScript coerces to `false`. -/
theorem filterTransactions_empty_topic_falsy :
    filterTransactions (some ["", "0xa"])
        [⟨"h", "0xto", "0xfrom", "", 0, "", 0, "", []⟩]
        [("h", ⟨"0x1", "h", [⟨"0xaddr", ["", "0xa"], "0xd"⟩]⟩)] = [] ∧
      ((receiptLogsFor [("h", ⟨"0x1", "h", [⟨"0xaddr", ["", "0xa"], "0xd"⟩]⟩)]
            ⟨"h", "0xto", "0xfrom", "", 0, "", 0, "", []⟩).any fun log =>
          ["", "0xa"].any fun t => log.topics.contains t) = true := by
  constructor
  · decide
  · decide

/-- C8 (amended): provided no configured topic is the empty string, the
secondary filter retains a transaction if and only if at least one log of
its receipt contains at least one configured topic; with an empty-string
topic configured, a log whose first matching topic is `""` is wrongly
treated as non-matching. -/
theorem filterTransactions_topic_intersection (topics : List String)
    (txs : List EvmTransaction) (receipts : Rec ReceiptTransaction)
    (h : "" ∉ topics) (tx : EvmTransaction) :
    tx ∈ filterTransactions (some topics) txs receipts ↔
      tx ∈ txs ∧ ∃ log ∈ receiptLogsFor receipts tx, ∃ t ∈ topics, t ∈ log.topics := by
  have key : ∀ log : ReceiptLog,
      (match topics.find? (fun topic => log.topics.contains topic) with
        | some topic => topic != ""
        | none => false) = true ↔ ∃ t ∈ topics, t ∈ log.topics := by
    intro log
    constructor
    · intro hpred
      rcases hfind : topics.find? (fun topic => log.topics.contains topic) with _ | t
      · rw [hfind] at hpred
        exact absurd hpred (by decide)
      · have ht : t ∈ topics := List.mem_of_find?_eq_some hfind
        have hc : log.topics.contains t = true := List.find?_some hfind
        rw [List.contains, List.elem_iff] at hc
        exact ⟨t, ht, hc⟩
    · rintro ⟨t, ht, htop⟩
      have hex : (topics.find? (fun topic => log.topics.contains topic)).isSome = true := by
        rw [List.find?_isSome]
        refine ⟨t, ht, ?_⟩
        rw [List.contains, List.elem_iff]
        exact htop
      obtain ⟨t0, hfind⟩ := Option.isSome_iff_exists.mp hex
      rw [hfind]
      have ht0 : t0 ∈ topics := List.mem_of_find?_eq_some hfind
      have hne : ¬ (t0 = "") := fun he => h (he ▸ ht0)
      simpa using hne
  unfold filterTransactions
  rw [List.mem_filter]
  apply and_congr_right
  intro _
  rw [List.any_eq_true]
  exact exists_congr fun log => and_congr_right fun _ => key log

/-- Witness for the amended C8: with the single nonempty configured topic
"0xa", a transaction whose receipt log carries "0xa" is retained. -/
theorem filterTransactions_topic_intersection_witness :
    ("" ∉ ["0xa"]) ∧
      ((⟨"h", "0xto", "0xfrom", "", 0, "", 0, "", []⟩ : EvmTransaction) ∈
          filterTransactions (some ["0xa"])
            [⟨"h", "0xto", "0xfrom", "", 0, "", 0, "", []⟩]
            [("h", ⟨"0x1", "h", [⟨"0xaddr", ["0xa"], "0xd"⟩]⟩)] ↔
        (⟨"h", "0xto", "0xfrom", "", 0, "", 0, "", []⟩ : EvmTransaction) ∈
            [(⟨"h", "0xto", "0xfrom", "", 0, "", 0, "", []⟩ : EvmTransaction)] ∧
          ∃ log ∈ receiptLogsFor [("h", ⟨"0x1", "h", [⟨"0xaddr", ["0xa"], "0xd"⟩]⟩)]
              ⟨"h", "0xto", "0xfrom", "", 0, "", 0, "", []⟩,
            ∃ t ∈ ["0xa"], t ∈ log.topics) :=
  ⟨by decide,
    filterTransactions_topic_intersection ["0xa"]
      [⟨"h", "0xto", "0xfrom", "", 0, "", 0, "", []⟩]
      [("h", ⟨"0x1", "h", [⟨"0xaddr", ["0xa"], "0xd"⟩]⟩)] (by decide) _⟩

/-- C6 counterexample: a batch response array holding one valid receipt and
one `null` entry does not make the call fail — the `null` entry is silently
dropped by the `if (result)` guard before parsing, and `getTransactionReceipt`
succeeds with a partial mapping of a single receipt for the two requested
hashes. -/
theorem getTransactionReceipt_drops_null_entry :
    getTransactionReceipt c6Respond ["a", "b"] =
        .ok [("0xabc", ⟨"0x1", "0xabc", []⟩)] ∧
      none ∈ c6Respond ["a", "b"] ∧
      divideIntoBatches 10 ["a", "b"] = [["a", "b"]] := by
  refine ⟨by rfl, by decide, by decide⟩

/-- C6 (amended): every non-null response entry that cannot be parsed aborts
the whole `getTransactionReceipt` call with an error — no partial result is
returned; only `null`/absent entries of a batch response array are silently
dropped before parsing. -/
theorem getTransactionReceipt_fails_on_unparseable
    (respond : List String → List (Option ReceiptResponse)) (hashNumbers : List String)
    (r : ReceiptResponse) (b : List String)
    (hb : b ∈ divideIntoBatches 10 hashNumbers)
    (hr : some r ∈ respond b)
    (hbad : isOkE (processReceiptResponse r) = false) :
    isOkE (getTransactionReceipt respond hashNumbers) = false := by
  have hmem : r ∈ ((divideIntoBatches 10 hashNumbers).map
      (fun batch => (respond batch).filterMap id)).flatten := by
    rw [List.mem_flatten]
    refine ⟨(respond b).filterMap id, List.mem_map_of_mem _ hb, ?_⟩
    rw [List.mem_filterMap]
    exact ⟨some r, hr, rfl⟩
  have hne : (((divideIntoBatches 10 hashNumbers).map
      (fun batch => (respond batch).filterMap id)).flatten).length ≠ 0 := by
    intro hlen
    rw [List.length_eq_zero] at hlen
    rw [hlen] at hmem
    exact absurd hmem (List.not_mem_nil r)
  unfold getTransactionReceipt
  rw [if_pos hne]
  have hfail := exceptMapM_not_ok_of_mem processReceiptResponse _ r hmem hbad
  rcases hres : exceptMapM processReceiptResponse
      (((divideIntoBatches 10 hashNumbers).map
        (fun batch => (respond batch).filterMap id)).flatten) with e | receipts
  · simp [isOkE]
  · rw [hres] at hfail
    simp [isOkE] at hfail

/-- Witness for the amended C6: a single non-null, null-result receipt
response makes the whole call fail. -/
theorem getTransactionReceipt_fails_on_unparseable_witness :
    (["a"] ∈ divideIntoBatches 10 ["a"] ∧
        some (⟨JsVal.null, JsVal.undef⟩ : ReceiptResponse) ∈ c6BadRespond ["a"] ∧
        isOkE (processReceiptResponse ⟨JsVal.null, JsVal.undef⟩) = false) ∧
      isOkE (getTransactionReceipt c6BadRespond ["a"]) = false :=
  ⟨⟨by decide, by decide, by decide⟩,
    getTransactionReceipt_fails_on_unparseable c6BadRespond ["a"]
      ⟨JsVal.null, JsVal.undef⟩ ["a"] (by decide) (by decide) (by decide)⟩

theorem processBlockResponse_isOk (now : Nat) (x : BlockResponse)
    (h : isDegradedResp x = true ∨ wellFormedResp x = true) :
    isOkE (processBlockResponse now (some x)) = true := by
  by_cases hdeg : isDegradedResp x = true
  · simp [processBlockResponse, hdeg, isOkE]
  · rcases h with h | h
    · exact absurd h hdeg
    · unfold wellFormedResp at h
      rcases hres : x.result with _ | _ | b
      · rw [hres] at h
        exact absurd h (by simp)
      · rw [hres] at h
        exact absurd h (by simp)
      · rw [hres] at h
        have hb : (b.hash != "" && b.number != 0 && b.timestamp != 0) = true := by
          simpa using h
        simp [processBlockResponse, hdeg, hres, hb, isOkE]

/-- C5: if every entry of the batched `eth_getBlockByNumber` response is
either degraded-recoverable (a `null` result or error code 6969) or a
well-formed block, then `getBlocks` succeeds; and every degraded entry is
replaced by a synthesized block whose hash is the empty string, whose number
is the requested block number (the echoed request id), and whose timestamp
is the current wall-clock time, while every well-formed entry is converted
normally. -/
theorem getBlocks_recovers_degraded (now : Nat) (nums : List Nat)
    (resps : List (Option BlockResponse))
    (hn : nums ≠ []) (hr : resps ≠ [])
    (hid : ∀ x : BlockResponse, some x ∈ resps → x.id ∈ nums)
    (hall : ∀ r ∈ resps, ∃ x, r = some x ∧
      (isDegradedResp x = true ∨ wellFormedResp x = true)) :
    isOkE (getBlocks now nums resps) = true ∧
      (∀ x : BlockResponse, some x ∈ resps → isDegradedResp x = true →
        processBlockResponse now (some x) = .ok ⟨"", x.id, now⟩ ∧ x.id ∈ nums) ∧
      (∀ x : BlockResponse, ∀ b : WireBlock, some x ∈ resps →
        isDegradedResp x = false → x.result = JsVal.val b →
        processBlockResponse now (some x) = .ok ⟨b.hash, b.number, b.timestamp⟩) := by
  refine ⟨?_, ?_, ?_⟩
  · unfold getBlocks
    rw [if_neg (by simpa using List.length_eq_zero.not.mpr hn),
      if_neg (by simpa using List.length_eq_zero.not.mpr hr)]
    have hok : isOkE (exceptMapM (processBlockResponse now) resps) = true := by
      rw [exceptMapM_isOk_iff]
      intro r hrm
      obtain ⟨x, rfl, hx⟩ := hall r hrm
      exact processBlockResponse_isOk now x hx
    rcases hres : exceptMapM (processBlockResponse now) resps with e | blocks
    · rw [hres] at hok
      exact absurd hok (by simp [isOkE])
    · simp [isOkE]
  · intro x hx hdeg
    refine ⟨?_, hid x hx⟩
    simp only [processBlockResponse]
    rw [if_pos hdeg]
  · intro x b hx hdeg hres
    have hwf : wellFormedResp x = true := by
      rcases hall (some x) hx with ⟨x2, hx2, hcase⟩
      have hxx : x2 = x := by injection hx2.symm
      subst hxx
      rcases hcase with hc | hc
      · rw [hc] at hdeg
        exact absurd hdeg (by simp)
      · exact hc
    unfold wellFormedResp at hwf
    rw [hres] at hwf
    have hb : (b.hash != "" && b.number != 0 && b.timestamp != 0) = true := by
      simpa using hwf
    simp only [processBlockResponse]
    rw [if_neg (by simp [hdeg]), hres]
    simp [hb]

/-- Witness for C5: one degraded (null-result) response and one well-formed
response for the requested blocks 5 and 6. -/
theorem getBlocks_recovers_degraded_witness :
    (([5, 6] : List Nat) ≠ [] ∧
        ([some ⟨5, JsVal.null, JsVal.undef⟩,
            some ⟨6, JsVal.val ⟨"0xb6", 6, 1700⟩, JsVal.undef⟩] :
          List (Option BlockResponse)) ≠ []) ∧
      isOkE (getBlocks 42 [5, 6]
        [some ⟨5, JsVal.null, JsVal.undef⟩,
          some ⟨6, JsVal.val ⟨"0xb6", 6, 1700⟩, JsVal.undef⟩]) = true ∧
      processBlockResponse 42 (some ⟨5, JsVal.null, JsVal.undef⟩) = .ok ⟨"", 5, 42⟩ := by
  have hid : ∀ x : BlockResponse,
      some x ∈ ([some ⟨5, JsVal.null, JsVal.undef⟩,
        some ⟨6, JsVal.val ⟨"0xb6", 6, 1700⟩, JsVal.undef⟩] :
          List (Option BlockResponse)) → x.id ∈ ([5, 6] : List Nat) := by
    intro x hx
    rcases List.mem_cons.mp hx with hx | hx
    · have : x = ⟨5, JsVal.null, JsVal.undef⟩ := by injection hx
      rw [this]
      decide
    · rcases List.mem_cons.mp hx with hx | hx
      · have : x = ⟨6, JsVal.val ⟨"0xb6", 6, 1700⟩, JsVal.undef⟩ := by injection hx
        rw [this]
        decide
      · exact absurd hx (List.not_mem_nil _)
  have hall : ∀ r ∈ ([some ⟨5, JsVal.null, JsVal.undef⟩,
      some ⟨6, JsVal.val ⟨"0xb6", 6, 1700⟩, JsVal.undef⟩] :
        List (Option BlockResponse)),
      ∃ x, r = some x ∧ (isDegradedResp x = true ∨ wellFormedResp x = true) := by
    intro r hrm
    rcases List.mem_cons.mp hrm with hrm | hrm
    · exact ⟨⟨5, JsVal.null, JsVal.undef⟩, hrm, Or.inl (by decide)⟩
    · rcases List.mem_cons.mp hrm with hrm | hrm
      · exact ⟨⟨6, JsVal.val ⟨"0xb6", 6, 1700⟩, JsVal.undef⟩, hrm, Or.inr (by decide)⟩
      · exact absurd hrm (List.not_mem_nil _)
  have hmain := getBlocks_recovers_degraded 42 [5, 6]
    [some ⟨5, JsVal.null, JsVal.undef⟩,
      some ⟨6, JsVal.val ⟨"0xb6", 6, 1700⟩, JsVal.undef⟩]
    (by decide) (by decide) hid hall
  exact ⟨⟨by decide, by decide⟩, hmain.1,
    (hmain.2.1 ⟨5, JsVal.null, JsVal.undef⟩ (by decide) (by decide)).1⟩

theorem processBlockResponse_hash (now : Nat) (r : Option BlockResponse) (blk : EvmBlock)
    (h : processBlockResponse now r = .ok blk) :
    blk.hash = "" ↔ degradedEntry r = true := by
  cases r with
  | none => simp [processBlockResponse] at h
  | some x =>
    by_cases hdeg : isDegradedResp x = true
    · have hv : processBlockResponse now (some x) = .ok ⟨"", x.id, now⟩ := by
        simp only [processBlockResponse]
        rw [if_pos hdeg]
      rw [hv] at h
      injection h with h
      rw [← h]
      simp [degradedEntry, hdeg]
    · rcases hres : x.result with _ | _ | b
      · have hv : processBlockResponse now (some x) =
            .error "Unable to parse result of eth_getBlockByNumber" := by
          simp only [processBlockResponse]
          rw [if_neg hdeg, hres]
        rw [hv] at h
        exact absurd h (by simp)
      · exact absurd (by simp [isDegradedResp, hres]) hdeg
      · by_cases hb : (b.hash != "" && b.number != 0 && b.timestamp != 0) = true
        · have hv : processBlockResponse now (some x) =
              .ok ⟨b.hash, b.number, b.timestamp⟩ := by
            simp only [processBlockResponse]
            rw [if_neg hdeg, hres]
            simp [hb]
          rw [hv] at h
          injection h with h
          rw [← h]
          have hcomp : (b.hash ≠ "" ∧ b.number ≠ 0) ∧ b.timestamp ≠ 0 := by
            simpa using hb
          constructor
          · intro hh
            exact absurd hh hcomp.1.1
          · intro hd
            exact absurd hd hdeg
        · have hv : processBlockResponse now (some x) =
              .error "Unable to parse result of eth_getBlockByNumber" := by
            simp only [processBlockResponse]
            rw [if_neg hdeg, hres]
            simp [hb]
          rw [hv] at h
          exact absurd h (by simp)

theorem forall2_hash_count (now : Nat) (l : List (Option BlockResponse)) (bs : List EvmBlock)
    (h : List.Forall₂ (fun a b => processBlockResponse now a = .ok b) l bs) :
    bs.countP (fun b => b.hash == "") = l.countP degradedEntry := by
  induction h with
  | nil => simp
  | @cons a b l2 bs2 hab htail ih =>
    simp only [List.countP_cons, ih]
    have hiff := processBlockResponse_hash now a b hab
    by_cases hbh : b.hash = ""
    · have hda : degradedEntry a = true := hiff.mp hbh
      simp [hbh, hda]
    · have hda : degradedEntry a = false := by
        cases hval : degradedEntry a
        · rfl
        · exact absurd (hiff.mpr hval) hbh
      simp [hbh, hda]

theorem lookupRec_isSome_iff {α : Type} (rec : Rec α) (k : String) :
    (lookupRec rec k).isSome = true ↔ k ∈ recKeys rec := by
  induction rec with
  | nil => simp [lookupRec, recKeys]
  | cons p rest ih =>
    obtain ⟨k2, v⟩ := p
    by_cases hpk : k2 = k
    · simp [lookupRec, recKeys, hpk]
    · simp [lookupRec, recKeys, hpk, Ne.symm hpk, ih]

theorem recKeys_insertRec {α : Type} (rec : Rec α) (k : String) (v : α) :
    recKeys (insertRec rec k v) =
      if k ∈ recKeys rec then recKeys rec else recKeys rec ++ [k] := by
  unfold insertRec
  by_cases hmem : k ∈ recKeys rec
  · rw [if_pos ((lookupRec_isSome_iff rec k).mpr hmem), if_pos hmem]
    unfold recKeys
    rw [List.map_map]
    apply List.map_congr_left
    intro p _
    by_cases hp : p.1 = k
    · simp [hp]
    · simp [hp]
  · rw [if_neg (fun hs => hmem ((lookupRec_isSome_iff rec k).mp hs)), if_neg hmem]
    unfold recKeys
    rw [List.map_append]
    rfl

theorem recKeys_nodup_insertRec {α : Type} (rec : Rec α) (k : String) (v : α)
    (h : (recKeys rec).Nodup) : (recKeys (insertRec rec k v)).Nodup := by
  rw [recKeys_insertRec]
  by_cases hmem : k ∈ recKeys rec
  · rwa [if_pos hmem]
  · rw [if_neg hmem, List.nodup_append]
    refine ⟨h, List.nodup_singleton k, ?_⟩
    intro x hx hxk
    rw [List.mem_singleton] at hxk
    exact hmem (hxk ▸ hx)

theorem foldl_insertRec_nodup (bs : List EvmBlock) :
    ∀ acc : Rec EvmBlock, (recKeys acc).Nodup →
      (recKeys (bs.foldl (fun acc b => insertRec acc b.hash b) acc)).Nodup := by
  induction bs with
  | nil =>
    intro acc h
    simpa using h
  | cons b bt ih =>
    intro acc h
    rw [List.foldl_cons]
    exact ih _ (recKeys_nodup_insertRec acc b.hash b h)

theorem foldl_insertRec_keys_subset (bs : List EvmBlock) :
    ∀ acc : Rec EvmBlock,
      recKeys (bs.foldl (fun acc b => insertRec acc b.hash b) acc) ⊆
        recKeys acc ++ bs.map (fun b => b.hash) := by
  induction bs with
  | nil =>
    intro acc
    simp
  | cons b bt ih =>
    intro acc x hx
    rw [List.foldl_cons] at hx
    have hx2 := ih (insertRec acc b.hash b) hx
    rw [List.mem_append] at hx2
    simp only [List.map_cons, List.mem_append, List.mem_cons]
    rcases hx2 with hk | hk
    · rw [recKeys_insertRec] at hk
      by_cases hmem : b.hash ∈ recKeys acc
      · rw [if_pos hmem] at hk
        exact Or.inl hk
      · rw [if_neg hmem] at hk
        rcases List.mem_append.mp hk with hk | hk
        · exact Or.inl hk
        · rw [List.mem_singleton] at hk
          exact Or.inr (Or.inl hk)
    · exact Or.inr (Or.inr hk)

/-- C9: when at least two requested block numbers are recovered as degraded
blocks, all degraded blocks carry the empty-string hash and are therefore
stored under the same record key, so the record `getBlocks` returns has
strictly fewer entries than the number of requested block numbers. -/
theorem getBlocks_degraded_collapse (now : Nat) (nums : List Nat)
    (resps : List (Option BlockResponse))
    (hlen : resps.length = nums.length)
    (hall : ∀ r ∈ resps, ∃ x, r = some x ∧
      (isDegradedResp x = true ∨ wellFormedResp x = true))
    (hdeg : 2 ≤ resps.countP degradedEntry) :
    ∃ rec : Rec EvmBlock, getBlocks now nums resps = .ok rec ∧
      rec.length < nums.length ∧
      ∀ x : BlockResponse, some x ∈ resps → isDegradedResp x = true →
        processBlockResponse now (some x) = .ok ⟨"", x.id, now⟩ := by
  have hcle : resps.countP degradedEntry ≤ resps.length := List.countP_le_length _
  have hok : isOkE (exceptMapM (processBlockResponse now) resps) = true := by
    rw [exceptMapM_isOk_iff]
    intro r hrm
    obtain ⟨x, rfl, hx⟩ := hall r hrm
    exact processBlockResponse_isOk now x hx
  obtain ⟨bs, hbs⟩ := (isOkE_iff_exists _).mp hok
  have hF := (exceptMapM_ok_iff (processBlockResponse now) resps bs).mp hbs
  have hlbs : bs.length = resps.length := hF.length_eq.symm
  have hval : getBlocks now nums resps =
      .ok (bs.foldl (fun acc b => insertRec acc b.hash b) []) := by
    unfold getBlocks
    rw [if_neg (by omega), if_neg (by omega), hbs]
  refine ⟨bs.foldl (fun acc b => insertRec acc b.hash b) [], hval, ?_, ?_⟩
  · have hkeysnodup : (recKeys (bs.foldl (fun acc b => insertRec acc b.hash b) [])).Nodup :=
      foldl_insertRec_nodup bs [] (by simp [recKeys])
    have hsub : recKeys (bs.foldl (fun acc b => insertRec acc b.hash b) []) ⊆
        bs.map (fun b => b.hash) := by
      have := foldl_insertRec_keys_subset bs []
      simpa [recKeys] using this
    have hsp : List.Subperm (recKeys (bs.foldl (fun acc b => insertRec acc b.hash b) []))
        ((bs.map (fun b => b.hash)).dedup) :=
      List.Nodup.subperm hkeysnodup (fun x hx => List.mem_dedup.mpr (hsub hx))
    have h1 : (recKeys (bs.foldl (fun acc b => insertRec acc b.hash b) [])).length ≤
        ((bs.map (fun b => b.hash)).dedup).length := hsp.length_le
    have hsubd : (bs.map (fun b => b.hash)).dedup ⊆
        "" :: (bs.map (fun b => b.hash)).filter (fun s => !(s == "")) := by
      intro x hx
      have hxs : x ∈ bs.map (fun b => b.hash) := List.mem_dedup.mp hx
      by_cases hxe : x = ""
      · rw [hxe]
        exact List.mem_cons_self _ _
      · refine List.mem_cons_of_mem _ (List.mem_filter.mpr ⟨hxs, ?_⟩)
        simp [hxe]
    have hsp2 : List.Subperm ((bs.map (fun b => b.hash)).dedup)
        ("" :: (bs.map (fun b => b.hash)).filter (fun s => !(s == ""))) :=
      List.Nodup.subperm (List.nodup_dedup _) hsubd
    have h2 : ((bs.map (fun b => b.hash)).dedup).length ≤
        1 + ((bs.map (fun b => b.hash)).filter (fun s => !(s == ""))).length := by
      have := hsp2.length_le
      simpa [Nat.add_comm] using this
    have h3 : ((bs.map (fun b => b.hash)).filter (fun s => !(s == ""))).length =
        (bs.map (fun b => b.hash)).countP (fun s => !(s == "")) :=
      (List.countP_eq_length_filter _ _).symm
    have h4 : (bs.map (fun b => b.hash)).countP (fun s => s == "") +
        (bs.map (fun b => b.hash)).countP (fun s => !(s == "")) =
          (bs.map (fun b => b.hash)).length :=
      countP_add_countP_not _ _
    have h5 : (bs.map (fun b => b.hash)).countP (fun s => s == "") =
        resps.countP degradedEntry := by
      rw [List.countP_map]
      simpa [Function.comp] using forall2_hash_count now resps bs hF
    have hhslen : (bs.map (fun b => b.hash)).length = bs.length := by simp
    have hreclen : (bs.foldl (fun acc b => insertRec acc b.hash b) []).length =
        (recKeys (bs.foldl (fun acc b => insertRec acc b.hash b) [])).length := by
      simp [recKeys]
    omega
  · intro x hx hd
    simp only [processBlockResponse]
    rw [if_pos hd]

/-- Witness for C9: both requested blocks 1 and 2 answered with `null`
results collapse into a single degraded record entry. -/
theorem getBlocks_degraded_collapse_witness :
    (([some ⟨1, JsVal.null, JsVal.undef⟩, some ⟨2, JsVal.null, JsVal.undef⟩] :
          List (Option BlockResponse)).length = ([1, 2] : List Nat).length ∧
        2 ≤ ([some ⟨1, JsVal.null, JsVal.undef⟩, some ⟨2, JsVal.null, JsVal.undef⟩] :
          List (Option BlockResponse)).countP degradedEntry) ∧
      ∃ rec : Rec EvmBlock,
        getBlocks 0 [1, 2]
            [some ⟨1, JsVal.null, JsVal.undef⟩, some ⟨2, JsVal.null, JsVal.undef⟩] =
          .ok rec ∧
        rec.length < ([1, 2] : List Nat).length ∧
        ∀ x : BlockResponse,
          some x ∈ ([some ⟨1, JsVal.null, JsVal.undef⟩, some ⟨2, JsVal.null, JsVal.undef⟩] :
            List (Option BlockResponse)) → isDegradedResp x = true →
          processBlockResponse 0 (some x) = .ok ⟨"", x.id, 0⟩ := by
  have hall : ∀ r ∈ ([some ⟨1, JsVal.null, JsVal.undef⟩,
      some ⟨2, JsVal.null, JsVal.undef⟩] : List (Option BlockResponse)),
      ∃ x, r = some x ∧ (isDegradedResp x = true ∨ wellFormedResp x = true) := by
    intro r hrm
    rcases List.mem_cons.mp hrm with hrm | hrm
    · exact ⟨⟨1, JsVal.null, JsVal.undef⟩, hrm, Or.inl (by decide)⟩
    · rcases List.mem_cons.mp hrm with hrm | hrm
      · exact ⟨⟨2, JsVal.null, JsVal.undef⟩, hrm, Or.inl (by decide)⟩
      · exact absurd hrm (List.not_mem_nil _)
  exact ⟨⟨by decide, by decide⟩,
    getBlocks_degraded_collapse 0 [1, 2]
      [some ⟨1, JsVal.null, JsVal.undef⟩, some ⟨2, JsVal.null, JsVal.undef⟩]
      (by decide) hall (by decide)⟩

end WormholeExplorer
